import Mathlib

/-!
# BLAKE2b header (`sha3/blake2b.h`): word codec, constants, parameter block, wipe,
streaming API

A shallow embedding of the inline helpers and declarations of `blake2b.h`, and a
model of the streaming operations that the header only declares.

* `uint8_t` is `Byte = Fin 256`; `uint64_t` and `size_t` are `Nat` with explicit
  reduction modulo `2 ^ 64` where the C operation can overflow.
* A pointer into a buffer is the buffer (`List Byte`) together with an index; an
  access outside the buffer yields `none` (undefined behaviour in C).
* The conditional compilation on `NATIVE_LITTLE_ENDIAN` is a `Bool` argument.
-/

namespace Blake2b

/-! ## Machine model -/

/-- The C type `uint8_t`. -/
abbrev Byte := Fin 256

/-- The cast `(uint8_t)w`. -/
def u8 (w : Nat) : Byte := ⟨w % 256, Nat.mod_lt _ (by decide)⟩

/-- The expression `x << n` on `uint64_t`. -/
def shl64 (x n : Nat) : Nat := (x <<< n) % 2 ^ 64

/-- The read `*p` of a `const uint8_t *` at index `i` of buffer `p`,
converted to `uint64_t`. -/
def rd (p : List Byte) (i : Nat) : Option Nat := (p[i]?).map Fin.val

/-- The write `*p = b` at index `i` of buffer `p`. -/
def wr (p : List Byte) (i : Nat) (b : Byte) : Option (List Byte) :=
  if i < p.length then some (p.set i b) else none

/-- Value of a `uint64_t` whose object representation on a little-endian host
is the given bytes (lowest address first). -/
def u64_of_repr : List Byte → Nat
  | [] => 0
  | b :: bs => b.val + 256 * u64_of_repr bs

/-- Object representation (`k` bytes, lowest address first) of an unsigned
integer on a little-endian host. -/
def repr_of_u64 : Nat → Nat → List Byte
  | 0, _ => []
  | k + 1, w => u8 w :: repr_of_u64 k (w / 256)

/-- The call `memcpy(&w, src, sizeof w)` for a `uint64_t w` on a little-endian
host: the value of `w` afterwards. -/
def memcpy_to_u64 (src : List Byte) : Option Nat :=
  if 8 ≤ src.length then some (u64_of_repr (src.take 8)) else none

/-- The call `memcpy(dst, &w, sizeof w)` for a `uint64_t w` on a little-endian
host: the buffer `dst` afterwards. -/
def memcpy_of_u64 (dst : List Byte) (w : Nat) : Option (List Byte) :=
  if 8 ≤ dst.length then some (repr_of_u64 8 w ++ dst.drop 8) else none

/-! ## `blake2-impl.h` helpers -/

/-- The function `load64`; `native` selects the `NATIVE_LITTLE_ENDIAN` branch. -/
def load64 (native : Bool) (src : List Byte) : Option Nat :=
  if native then
    memcpy_to_u64 src
  else do
    let w ← rd src 0
    let b ← rd src 1
    let w := w ||| shl64 b 8
    let b ← rd src 2
    let w := w ||| shl64 b 16
    let b ← rd src 3
    let w := w ||| shl64 b 24
    let b ← rd src 4
    let w := w ||| shl64 b 32
    let b ← rd src 5
    let w := w ||| shl64 b 40
    let b ← rd src 6
    let w := w ||| shl64 b 48
    let b ← rd src 7
    let w := w ||| shl64 b 56
    pure w

/-- The function `store64`; `native` selects the `NATIVE_LITTLE_ENDIAN` branch.
Returns the destination buffer after the call. -/
def store64 (native : Bool) (dst : List Byte) (w : Nat) : Option (List Byte) :=
  if native then
    memcpy_of_u64 dst w
  else do
    let dst ← wr dst 0 (u8 w)
    let w := w >>> 8
    let dst ← wr dst 1 (u8 w)
    let w := w >>> 8
    let dst ← wr dst 2 (u8 w)
    let w := w >>> 8
    let dst ← wr dst 3 (u8 w)
    let w := w >>> 8
    let dst ← wr dst 4 (u8 w)
    let w := w >>> 8
    let dst ← wr dst 5 (u8 w)
    let w := w >>> 8
    let dst ← wr dst 6 (u8 w)
    let w := w >>> 8
    let dst ← wr dst 7 (u8 w)
    pure dst

/-- The function `load48`. -/
def load48 (src : List Byte) : Option Nat := do
  let w ← rd src 0
  let b ← rd src 1
  let w := w ||| shl64 b 8
  let b ← rd src 2
  let w := w ||| shl64 b 16
  let b ← rd src 3
  let w := w ||| shl64 b 24
  let b ← rd src 4
  let w := w ||| shl64 b 32
  let b ← rd src 5
  let w := w ||| shl64 b 40
  pure w

/-- The function `store48`. Returns the destination buffer after the call. -/
def store48 (dst : List Byte) (w : Nat) : Option (List Byte) := do
  let dst ← wr dst 0 (u8 w)
  let w := w >>> 8
  let dst ← wr dst 1 (u8 w)
  let w := w >>> 8
  let dst ← wr dst 2 (u8 w)
  let w := w >>> 8
  let dst ← wr dst 3 (u8 w)
  let w := w >>> 8
  let dst ← wr dst 4 (u8 w)
  let w := w >>> 8
  let dst ← wr dst 5 (u8 w)
  pure dst

/-! ## Wipe -/

/-- Largest value of `size_t` (64-bit). -/
def SIZE_MAX : Nat := 2 ^ 64 - 1

/-- How a run of the embedding can go wrong. -/
inductive Fault where
  | out_of_bounds
  | out_of_fuel
  deriving DecidableEq, Repr

/-- Machine state of `secure_zero_memory`: the buffer `v`, the offset of the
cursor `p` in it, the counter `n`, and the number of byte writes made so far. -/
structure WipeState where
  v : List Byte
  p : Nat
  n : Nat
  writes : Nat
  deriving DecidableEq, Repr

/-- The loop `while( n-- ) *p++ = 0;`. Each unit of fuel pays for one
evaluation of the loop test. -/
def secure_zero_loop : Nat → WipeState → Except Fault WipeState
  | 0, _ => .error .out_of_fuel
  | fuel + 1, s =>
    let test := s.n
    let n := (s.n + SIZE_MAX) % (SIZE_MAX + 1)
    if test = 0 then
      .ok { s with n := n }
    else
      match wr s.v s.p 0 with
      | none => .error .out_of_bounds
      | some v => secure_zero_loop fuel { v := v, p := s.p + 1, n := n, writes := s.writes + 1 }

/-- The function `secure_zero_memory`. -/
def secure_zero_memory (fuel : Nat) (v : List Byte) (n : Nat) : Except Fault WipeState :=
  secure_zero_loop fuel { v := v, p := 0, n := n, writes := 0 }

/-! ## `blake2.h` declarations -/

/-- Enumerator of `enum blake2b_constant`. -/
def BLAKE2B_BLOCKBYTES : Nat := 128

/-- Enumerator of `enum blake2b_constant`. -/
def BLAKE2B_OUTBYTES : Nat := 64

/-- Enumerator of `enum blake2b_constant`. -/
def BLAKE2B_KEYBYTES : Nat := 64

/-- Enumerator of `enum blake2b_constant`. -/
def BLAKE2B_SALTBYTES : Nat := 16

/-- Enumerator of `enum blake2b_constant`. -/
def BLAKE2B_PERSONALBYTES : Nat := 16

/-- The C types used by the members of `struct __blake2b_param` and of
`struct __blake2b_state`. -/
inductive CType where
  | uint8_t
  | uint32_t
  | uint64_t
  | size_t
  | array (elem : CType) (len : Nat)
  deriving DecidableEq, Repr

/-- The operator `sizeof`, in bytes: the exact-width types, and `size_t` of
the width that `SIZE_MAX` fixes. -/
def CType.sizeof : CType → Nat
  | .uint8_t => 1
  | .uint32_t => 4
  | .uint64_t => 8
  | .size_t => 8
  | .array elem len => len * elem.sizeof

/-- A member declaration: its name, its type, and the number in the trailing
comment of its line. -/
structure Member where
  name : String
  type : CType
  comment : Nat
  deriving DecidableEq, Repr

/-- The member declarations of `struct __blake2b_param`, in source order. -/
def blake2b_param_members : List Member :=
  [ ⟨"digest_length", .uint8_t, 1⟩,
    ⟨"key_length", .uint8_t, 2⟩,
    ⟨"fanout", .uint8_t, 3⟩,
    ⟨"depth", .uint8_t, 4⟩,
    ⟨"leaf_length", .uint32_t, 8⟩,
    ⟨"node_offset", .uint64_t, 16⟩,
    ⟨"node_depth", .uint8_t, 17⟩,
    ⟨"inner_length", .uint8_t, 18⟩,
    ⟨"reserved", .array .uint8_t 14, 32⟩,
    ⟨"salt", .array .uint8_t BLAKE2B_SALTBYTES, 48⟩,
    ⟨"personal", .array .uint8_t BLAKE2B_PERSONALBYTES, 64⟩ ]

/-- Layout under `#pragma pack(push, 1)`: members are placed one after the
other without padding. Yields, per member, its name, the offset of its first
byte and the offset just past its last byte, starting at offset `off`. -/
def packed_layout : Nat → List Member → List (String × Nat × Nat)
  | _, [] => []
  | off, m :: ms => (m.name, off, off + m.type.sizeof) :: packed_layout (off + m.type.sizeof) ms

/-- Size of a struct under `#pragma pack(push, 1)`. -/
def packed_sizeof (ms : List Member) : Nat := (ms.map fun m => m.type.sizeof).sum

/-- The member declarations of `struct __blake2b_state`, in source order: the
name and the type of each. -/
def blake2b_state_members : List (String × CType) :=
  [ ("h", .array .uint64_t 8),
    ("t", .array .uint64_t 2),
    ("f", .array .uint64_t 2),
    ("buf", .array .uint8_t (2 * BLAKE2B_BLOCKBYTES)),
    ("buflen", .size_t),
    ("last_node", .uint8_t) ]

/-! ## Streaming API

`blake2.h` only declares `blake2b_compress`, `blake2b_init`, `blake2b_init_key`,
`blake2b_init_param`, `blake2b_update`, `blake2b_final` and `blake2b`; their
bodies are not part of the header. The definitions of this section follow the
prose specification of the hash engine. -/

/-- Modelled from the spec: the error taxonomy (§7) returned by the streaming
operations, whose bodies are not in `blake2b.h`. -/
inductive blake2b_error where
  | InvalidLength
  | AlreadyFinalized
  | InvalidParameterBlock
  deriving DecidableEq, Repr

/-- Modelled from the spec: the canonical BLAKE2b initialisation vector, which
`blake2b.h` does not contain. -/
def blake2b_IV : List Nat :=
  [ 0x6a09e667f3bcc908, 0xbb67ae8584caa73b, 0x3c6ef372fe94f82b, 0xa54ff53a5f1d36f1,
    0x510e527fade682d1, 0x9b05688c2b3e6c1f, 0x1f83d9abfb41bd6b, 0x5be0cd19137e2179 ]

/-- Modelled from the spec: the standard BLAKE2 sigma schedule (12 rows of 16
indices), which `blake2b.h` does not contain. -/
def blake2b_sigma : List (List Nat) :=
  [ [0, 1, 2, 3, 4, 5, 6, 7, 8, 9, 10, 11, 12, 13, 14, 15],
    [14, 10, 4, 8, 9, 15, 13, 6, 1, 12, 0, 2, 11, 7, 5, 3],
    [11, 8, 12, 0, 5, 2, 15, 13, 10, 14, 3, 6, 7, 1, 9, 4],
    [7, 9, 3, 1, 13, 12, 11, 14, 2, 6, 5, 10, 4, 0, 15, 8],
    [9, 0, 5, 7, 2, 4, 10, 15, 14, 1, 11, 12, 6, 8, 3, 13],
    [2, 12, 6, 10, 0, 11, 8, 3, 4, 13, 7, 5, 15, 14, 1, 9],
    [12, 5, 1, 15, 14, 13, 4, 10, 0, 7, 6, 3, 9, 2, 8, 11],
    [13, 11, 7, 14, 12, 1, 3, 9, 5, 0, 15, 4, 8, 6, 2, 10],
    [6, 15, 14, 9, 11, 3, 0, 8, 12, 2, 13, 7, 1, 4, 10, 5],
    [10, 2, 8, 4, 7, 6, 1, 5, 15, 11, 9, 14, 3, 12, 13, 0],
    [0, 1, 2, 3, 4, 5, 6, 7, 8, 9, 10, 11, 12, 13, 14, 15],
    [14, 10, 4, 8, 9, 15, 13, 6, 1, 12, 0, 2, 11, 7, 5, 3] ]

/-- Addition on `uint64_t`. -/
def add64 (a b : Nat) : Nat := (a + b) % 2 ^ 64

/-- Rotation to the right of a `uint64_t` by `n` bits, `0 < n < 64`. -/
def rotr64 (x n : Nat) : Nat := (x >>> n) ||| shl64 x (64 - n)

/-- The value of type `blake2b_param` (members of `struct __blake2b_param`). -/
structure blake2b_param where
  digest_length : Nat
  key_length : Nat
  fanout : Nat
  depth : Nat
  leaf_length : Nat
  node_offset : Nat
  node_depth : Nat
  inner_length : Nat
  reserved : List Byte
  salt : List Byte
  personal : List Byte
  deriving DecidableEq, Repr

/-- Contents of a `uint8_t[k]` member: `l`, cut or zero-padded to `k` bytes. -/
def pad_to (k : Nat) (l : List Byte) : List Byte := (l ++ List.replicate k 0).take k

/-- Modelled from the spec: the 64 bytes of a parameter block (§3, §6), members
in declaration order, multi-byte members little-endian. -/
def blake2b_param_bytes (P : blake2b_param) : List Byte :=
  [u8 P.digest_length, u8 P.key_length, u8 P.fanout, u8 P.depth]
    ++ repr_of_u64 4 P.leaf_length
    ++ repr_of_u64 8 P.node_offset
    ++ [u8 P.node_depth, u8 P.inner_length]
    ++ pad_to 14 P.reserved
    ++ pad_to BLAKE2B_SALTBYTES P.salt
    ++ pad_to BLAKE2B_PERSONALBYTES P.personal

/-- Modelled from the spec: the Hash State (§3). Members `h`, `t`, `f`, `buf`,
`last_node` as in `struct __blake2b_state`; `buf` holds the pending input only,
so that `buflen` is its length; `digest_length` is the digest length fixed at
init, against which `blake2b_final` compares its `outlen` (§4.4). -/
structure blake2b_state where
  h : List Nat
  t0 : Nat
  t1 : Nat
  f0 : Nat
  f1 : Nat
  buf : List Byte
  last_node : Nat
  digest_length : Nat
  deriving DecidableEq, Repr

/-- The member `buflen` of the state. -/
def blake2b_state.buflen (S : blake2b_state) : Nat := S.buf.length

/-- Modelled from the spec: the mixing primitive G (§4.3) on the working
vector `v` at positions `a b c d` with message words `x y`. -/
def blake2b_G (v : List Nat) (a b c d x y : Nat) : List Nat :=
  let va := v.getD a 0
  let vb := v.getD b 0
  let vc := v.getD c 0
  let vd := v.getD d 0
  let va := add64 va (add64 vb x)
  let vd := rotr64 (vd ^^^ va) 32
  let vc := add64 vc vd
  let vb := rotr64 (vb ^^^ vc) 24
  let va := add64 va (add64 vb y)
  let vd := rotr64 (vd ^^^ va) 16
  let vc := add64 vc vd
  let vb := rotr64 (vb ^^^ vc) 63
  (((v.set a va).set b vb).set c vc).set d vd

/-- Modelled from the spec: one round (§4.3): four column applications of G,
then four diagonal ones, message words chosen by row `r` of sigma. -/
def blake2b_round (m : List Nat) (v : List Nat) (r : Nat) : List Nat :=
  let s := blake2b_sigma.getD r []
  let w : Nat → Nat := fun i => m.getD (s.getD i 0) 0
  let v := blake2b_G v 0 4 8 12 (w 0) (w 1)
  let v := blake2b_G v 1 5 9 13 (w 2) (w 3)
  let v := blake2b_G v 2 6 10 14 (w 4) (w 5)
  let v := blake2b_G v 3 7 11 15 (w 6) (w 7)
  let v := blake2b_G v 0 5 10 15 (w 8) (w 9)
  let v := blake2b_G v 1 6 11 12 (w 10) (w 11)
  let v := blake2b_G v 2 7 8 13 (w 12) (w 13)
  let v := blake2b_G v 3 4 9 14 (w 14) (w 15)
  v

/-- Modelled from the spec: `blake2b_compress` (§4.3), declared in `blake2b.h`
without a body. Advances `t` by 128 with carry, mixes the block into the
working vector in 12 rounds and folds it back into `h`. -/
def blake2b_compress (S : blake2b_state) (block : List Byte) : blake2b_state :=
  let t0 := add64 S.t0 BLAKE2B_BLOCKBYTES
  let t1 := add64 S.t1 (if t0 < BLAKE2B_BLOCKBYTES then 1 else 0)
  let v := (List.range 8).map (fun i => S.h.getD i 0) ++ blake2b_IV
  let v := v.set 12 (v.getD 12 0 ^^^ t0)
  let v := v.set 13 (v.getD 13 0 ^^^ t1)
  let v := v.set 14 (v.getD 14 0 ^^^ S.f0)
  let v := v.set 15 (v.getD 15 0 ^^^ S.f1)
  let m := (List.range 16).map (fun i => (load64 false ((block.drop (8 * i)).take 8)).getD 0)
  let v := (List.range 12).foldl (blake2b_round m) v
  let h := (List.range 8).map (fun i => S.h.getD i 0 ^^^ v.getD i 0 ^^^ v.getD (i + 8) 0)
  { S with h := h, t0 := t0, t1 := t1 }

/-- Modelled from the spec: `blake2b_init_param` (§4.2), declared in
`blake2b.h` without a body. Checks the ranges of `digest_length` and
`key_length`, sets `h[i] = IV[i] xor` the `i`-th little-endian word of the
parameter block, zeroes `t`, `f`, `buf` and takes `last_node` from the caller. -/
def blake2b_init_param (P : blake2b_param) (last_node : Nat) :
    Except blake2b_error blake2b_state :=
  if P.digest_length < 1 ∨ BLAKE2B_OUTBYTES < P.digest_length
      ∨ BLAKE2B_KEYBYTES < P.key_length then
    .error .InvalidLength
  else
    let bytes := blake2b_param_bytes P
    let h := (List.range 8).map (fun i =>
      blake2b_IV.getD i 0 ^^^ (load64 false ((bytes.drop (8 * i)).take 8)).getD 0)
    .ok { h := h, t0 := 0, t1 := 0, f0 := 0, f1 := 0, buf := [], last_node := last_node,
          digest_length := P.digest_length }

/-- Modelled from the spec: the parameter block of `init_plain` and
`init_keyed` (§4.2): `fanout = 1`, `depth = 1`, all other tree fields, salt and
personalisation zero. -/
def blake2b_sequential_param (outlen keylen : Nat) : blake2b_param :=
  { digest_length := outlen, key_length := keylen, fanout := 1, depth := 1, leaf_length := 0,
    node_offset := 0, node_depth := 0, inner_length := 0, reserved := [], salt := [],
    personal := [] }

/-- Modelled from the spec: `blake2b_init` (`init_plain`, §4.2), declared in
`blake2b.h` without a body. -/
def blake2b_init (outlen : Nat) : Except blake2b_error blake2b_state :=
  if outlen < 1 ∨ BLAKE2B_OUTBYTES < outlen then
    .error .InvalidLength
  else
    blake2b_init_param (blake2b_sequential_param outlen 0) 0

/-- Modelled from the spec: one step of the drain of §4.4: compress the oldest
buffered block and shift the remainder left. -/
def blake2b_drain_step (S : blake2b_state) : blake2b_state :=
  { blake2b_compress S (S.buf.take BLAKE2B_BLOCKBYTES) with
    buf := S.buf.drop BLAKE2B_BLOCKBYTES }

/-- Modelled from the spec: the drain of §4.4: while the buffer holds more than
one full block, compress one block. Each unit of fuel pays for one test. -/
def blake2b_drain : Nat → blake2b_state → blake2b_state
  | 0, S => S
  | fuel + 1, S =>
    if BLAKE2B_BLOCKBYTES < S.buf.length then blake2b_drain fuel (blake2b_drain_step S) else S

/-- Modelled from the spec: `blake2b_update` (§4.4), declared in `blake2b.h`
without a body. Fails on a finalized state (`f[0]` set); otherwise appends the
input to the buffer and drains it, with fuel for every buffered byte. -/
def blake2b_update (S : blake2b_state) (inp : List Byte) :
    Except blake2b_error blake2b_state :=
  if S.f0 ≠ 0 then
    .error .AlreadyFinalized
  else
    let S := { S with buf := S.buf ++ inp }
    .ok (blake2b_drain S.buf.length S)

/-- Modelled from the spec: `blake2b_init_key` (`init_keyed`, §4.2), declared
in `blake2b.h` without a body. With `keylen > 0` the key, zero-padded to one
block, is absorbed through `blake2b_update`; the scratch block is local, so
wiping it afterwards does not show in the returned state. -/
def blake2b_init_key (outlen : Nat) (key : List Byte) (keylen : Nat) :
    Except blake2b_error blake2b_state :=
  if outlen < 1 ∨ BLAKE2B_OUTBYTES < outlen ∨ BLAKE2B_KEYBYTES < keylen then
    .error .InvalidLength
  else do
    let S ← blake2b_init_param (blake2b_sequential_param outlen keylen) 0
    if 0 < keylen then
      let block := pad_to BLAKE2B_BLOCKBYTES (key.take keylen)
      blake2b_update S block
    else
      pure S

/-- Modelled from the spec: `blake2b_final` (§4.4), declared in `blake2b.h`
without a body. Fails on a finalized state and on an `outlen` other than the
digest length fixed at init; otherwise zero-pads the buffered bytes to a block,
sets the finalization flags, compresses once and serialises
`h[0..ceil(outlen/8))` little-endian, cut to `outlen` bytes. Returns the state
after the call and the digest. -/
def blake2b_final (S : blake2b_state) (outlen : Nat) :
    Except blake2b_error (blake2b_state × List Byte) :=
  if S.f0 ≠ 0 then
    .error .AlreadyFinalized
  else if outlen ≠ S.digest_length then
    .error .InvalidLength
  else
    let block := pad_to BLAKE2B_BLOCKBYTES S.buf
    let S := { S with f0 := 2 ^ 64 - 1, f1 := if S.last_node ≠ 0 then 2 ^ 64 - 1 else S.f1 }
    let S := blake2b_compress S block
    let words := S.h.take ((outlen + 7) / 8)
    let bytes := words.flatMap (fun w => (store64 false (List.replicate 8 0) w).getD [])
    .ok (S, bytes.take outlen)

/-- Modelled from the spec: the one-shot facade `blake2b` (§4.5), declared in
`blake2b.h` without a body: init, one update with the whole input, final. -/
def blake2b (inp key : List Byte) (outlen keylen : Nat) : Except blake2b_error (List Byte) := do
  let S ← blake2b_init_key outlen key keylen
  let S ← blake2b_update S inp
  let r ← blake2b_final S outlen
  pure r.2

/-! ## Codec lemmas -/

theorem or_shl64 (a b k : Nat) (ha : a < 2 ^ k) (hb : b < 256) (hk : k ≤ 56) :
    a ||| shl64 b k = a + b * 2 ^ k := by
  have h1 : b * 2 ^ k < 2 ^ 64 := by
    calc b * 2 ^ k < 256 * 2 ^ k := Nat.mul_lt_mul_of_pos_right hb (Nat.two_pow_pos k)
      _ = 2 ^ (8 + k) := by rw [Nat.pow_add]
      _ ≤ 2 ^ 64 := Nat.pow_le_pow_right (by decide) (by omega)
  unfold shl64
  rw [Nat.shiftLeft_eq, Nat.mod_eq_of_lt h1, Nat.lor_comm, Nat.mul_comm b,
    ← Nat.mul_add_lt_is_or ha, Nat.add_comm]

theorem exists_cons8 (l : List Byte) (h : 8 ≤ l.length) :
    ∃ b0 b1 b2 b3 b4 b5 b6 b7 rest, l = b0 :: b1 :: b2 :: b3 :: b4 :: b5 :: b6 :: b7 :: rest := by
  rcases l with _ | ⟨b0, _ | ⟨b1, _ | ⟨b2, _ | ⟨b3, _ | ⟨b4, _ | ⟨b5, _ | ⟨b6, _ | ⟨b7, rest⟩⟩⟩⟩⟩⟩⟩⟩
  all_goals first | exact ⟨_, _, _, _, _, _, _, _, _, rfl⟩ | (simp at h)

theorem load64_cons8 (native : Bool) (b0 b1 b2 b3 b4 b5 b6 b7 : Byte) (rest : List Byte) :
    load64 native (b0 :: b1 :: b2 :: b3 :: b4 :: b5 :: b6 :: b7 :: rest)
      = some (b0.val + b1.val * 2 ^ 8 + b2.val * 2 ^ 16 + b3.val * 2 ^ 24 + b4.val * 2 ^ 32
          + b5.val * 2 ^ 40 + b6.val * 2 ^ 48 + b7.val * 2 ^ 56) := by
  have h0 := b0.isLt
  have h1 := b1.isLt
  have h2 := b2.isLt
  have h3 := b3.isLt
  have h4 := b4.isLt
  have h5 := b5.isLt
  have h6 := b6.isLt
  have h7 := b7.isLt
  cases native
  · simp only [load64, rd, Bool.false_eq_true, if_false, List.getElem?_cons_zero,
      List.getElem?_cons_succ, Option.map_some', Option.bind_eq_bind, Option.some_bind,
      Option.pure_def]
    rw [or_shl64 _ _ 8 (by omega) h1 (by omega), or_shl64 _ _ 16 (by omega) h2 (by omega),
      or_shl64 _ _ 24 (by omega) h3 (by omega), or_shl64 _ _ 32 (by omega) h4 (by omega),
      or_shl64 _ _ 40 (by omega) h5 (by omega), or_shl64 _ _ 48 (by omega) h6 (by omega),
      or_shl64 _ _ 56 (by omega) h7 (by omega)]
  · simp only [load64, memcpy_to_u64, if_true, List.length_cons, List.take_succ_cons,
      List.take_zero, u64_of_repr]
    rw [if_pos (by omega)]
    congr 1
    omega

theorem store64_cons8 (native : Bool) (d0 d1 d2 d3 d4 d5 d6 d7 : Byte) (rest : List Byte)
    (w : Nat) :
    store64 native (d0 :: d1 :: d2 :: d3 :: d4 :: d5 :: d6 :: d7 :: rest) w
      = some (u8 w :: u8 (w / 2 ^ 8) :: u8 (w / 2 ^ 16) :: u8 (w / 2 ^ 24) :: u8 (w / 2 ^ 32)
          :: u8 (w / 2 ^ 40) :: u8 (w / 2 ^ 48) :: u8 (w / 2 ^ 56) :: rest) := by
  have e2 : w / 2 ^ 8 / 2 ^ 8 = w / 2 ^ 16 := by
    rw [Nat.div_div_eq_div_mul, ← Nat.pow_add]
  have e3 : w / 2 ^ 16 / 2 ^ 8 = w / 2 ^ 24 := by
    rw [Nat.div_div_eq_div_mul, ← Nat.pow_add]
  have e4 : w / 2 ^ 24 / 2 ^ 8 = w / 2 ^ 32 := by
    rw [Nat.div_div_eq_div_mul, ← Nat.pow_add]
  have e5 : w / 2 ^ 32 / 2 ^ 8 = w / 2 ^ 40 := by
    rw [Nat.div_div_eq_div_mul, ← Nat.pow_add]
  have e6 : w / 2 ^ 40 / 2 ^ 8 = w / 2 ^ 48 := by
    rw [Nat.div_div_eq_div_mul, ← Nat.pow_add]
  have e7 : w / 2 ^ 48 / 2 ^ 8 = w / 2 ^ 56 := by
    rw [Nat.div_div_eq_div_mul, ← Nat.pow_add]
  cases native
  · simp only [store64, wr, Bool.false_eq_true, if_false, List.length_cons, List.set_cons_zero,
      List.set_cons_succ, Nat.shiftRight_eq_div_pow, Option.bind_eq_bind, Option.pure_def,
      Nat.zero_lt_succ, Nat.succ_lt_succ_iff, if_true, Option.some_bind, e2, e3, e4, e5, e6, e7]
  · simp only [store64, memcpy_of_u64, if_true, List.length_cons, repr_of_u64, List.drop_succ_cons,
      List.drop_zero, List.cons_append, List.nil_append]
    rw [if_pos (by omega)]
    have f1 : ∀ x : Nat, x / 256 = x / 2 ^ 8 := fun _ => rfl
    simp only [f1, e2, e3, e4, e5, e6, e7]

theorem secure_zero_loop_spec (n : Nat) : ∀ (fuel : Nat) (s : WipeState),
    s.n = n → n ≤ SIZE_MAX → s.p + n ≤ s.v.length → n < fuel →
    ∃ s', secure_zero_loop fuel s = .ok s' ∧ s'.v.length = s.v.length ∧
      (∀ i, s'.v[i]? = if s.p ≤ i ∧ i < s.p + n then some 0 else s.v[i]?) ∧
      s'.p = s.p + n ∧ s'.n = SIZE_MAX ∧ s'.writes = s.writes + n := by
  induction n with
  | zero =>
    intro fuel s hn _ _ hf
    obtain ⟨k, rfl⟩ : ∃ k, fuel = k + 1 := ⟨fuel - 1, by omega⟩
    refine ⟨{ s with n := SIZE_MAX }, ?_, rfl, ?_, rfl, rfl, rfl⟩
    · simp [secure_zero_loop, hn, SIZE_MAX]
    · intro i
      have : ¬ (s.p ≤ i ∧ i < s.p + 0) := by omega
      rw [if_neg this]
  | succ m ih =>
    intro fuel s hn hs hp hf
    obtain ⟨k, rfl⟩ : ∃ k, fuel = k + 1 := ⟨fuel - 1, by omega⟩
    have hw : wr s.v s.p 0 = some (s.v.set s.p 0) := by
      unfold wr
      rw [if_pos (by omega)]
    have hdec : (s.n + SIZE_MAX) % (SIZE_MAX + 1) = m := by
      have hmax : SIZE_MAX = 18446744073709551615 := by norm_num [SIZE_MAX]
      rw [hn]
      rw [hmax] at hs ⊢
      omega
    obtain ⟨s', h1, h2, h3, h4, h5, h6⟩ :=
      ih k { v := s.v.set s.p 0, p := s.p + 1, n := m, writes := s.writes + 1 } rfl
        (by omega) (by simp only [List.length_set]; omega) (by omega)
    dsimp only at h2 h3 h4 h6
    refine ⟨s', ?_, ?_, ?_, ?_, h5, ?_⟩
    · rw [secure_zero_loop]
      simp only [hdec, hw]
      rw [if_neg (by omega)]
      exact h1
    · rw [h2, List.length_set]
    · intro i
      rw [h3 i]
      simp only [List.getElem?_set]
      by_cases hi : s.p = i
      · subst hi
        have hlt : s.p < s.v.length := by omega
        simp [hlt]
      · by_cases h' : s.p + 1 ≤ i ∧ i < s.p + 1 + m
        · have : s.p ≤ i ∧ i < s.p + (m + 1) := by omega
          simp [h', this]
        · have : ¬ (s.p ≤ i ∧ i < s.p + (m + 1)) := by omega
          simp [h', this, hi]
    · rw [h4]; omega
    · rw [h6]; omega

/-! ## Claims -/

/-- C1: for every 8-byte sequence `b`, `load64` (either compilation branch)
returns the little-endian value
`b[0] + b[1]*2^8 + b[2]*2^16 + b[3]*2^24 + b[4]*2^32 + b[5]*2^40 + b[6]*2^48 + b[7]*2^56`. -/
theorem load64_little_endian (native : Bool) (b0 b1 b2 b3 b4 b5 b6 b7 : Byte) :
    load64 native [b0, b1, b2, b3, b4, b5, b6, b7]
      = some (b0.val + b1.val * 2 ^ 8 + b2.val * 2 ^ 16 + b3.val * 2 ^ 24 + b4.val * 2 ^ 32
          + b5.val * 2 ^ 40 + b6.val * 2 ^ 48 + b7.val * 2 ^ 56) :=
  load64_cons8 native b0 b1 b2 b3 b4 b5 b6 b7 []

/-- C2: for every 64-bit word `w` and every `i` in `[0,8)`, byte `i` written by
`store64(dst, w)` (either compilation branch) is `(w / 2^(8*i)) mod 256`. -/
theorem store64_little_endian (native : Bool) (dst : List Byte) (w i : Nat)
    (_hw : w < 2 ^ 64) (hd : 8 ≤ dst.length) (hi : i < 8) :
    ∃ out, store64 native dst w = some out ∧
      (out[i]?).map Fin.val = some (w / 2 ^ (8 * i) % 256) := by
  obtain ⟨d0, d1, d2, d3, d4, d5, d6, d7, rest, rfl⟩ := exists_cons8 dst hd
  refine ⟨_, store64_cons8 native d0 d1 d2 d3 d4 d5 d6 d7 rest w, ?_⟩
  interval_cases i <;> simp [u8]

/-- Instance of C2: byte 3 of the word `0x0807060504030201` is `4`. -/
theorem store64_little_endian_witness :
    0x0807060504030201 < 2 ^ 64 ∧ 8 ≤ (List.replicate 8 (0 : Byte)).length ∧ 3 < 8 ∧
    ∃ out, store64 false (List.replicate 8 (0 : Byte)) 0x0807060504030201 = some out ∧
      (out[3]?).map Fin.val = some (0x0807060504030201 / 2 ^ (8 * 3) % 256) :=
  ⟨by decide, by decide, by decide,
    store64_little_endian false (List.replicate 8 0) 0x0807060504030201 3
      (by decide) (by decide) (by decide)⟩

/-- C3: for every 64-bit word `w`, `load64` applied to the 8 bytes written by
`store64(dst, w)` returns `w` (for each pairing of compilation branches). -/
theorem load64_after_store64 (n1 n2 : Bool) (dst : List Byte) (w : Nat)
    (hw : w < 2 ^ 64) (hd : 8 ≤ dst.length) :
    ∃ out, store64 n1 dst w = some out ∧ load64 n2 out = some w ∧
      load64 n2 (out.take 8) = some w := by
  obtain ⟨d0, d1, d2, d3, d4, d5, d6, d7, rest, rfl⟩ := exists_cons8 dst hd
  refine ⟨_, store64_cons8 n1 d0 d1 d2 d3 d4 d5 d6 d7 rest w, ?_, ?_⟩
  · rw [load64_cons8]
    simp only [u8, Option.some.injEq]
    omega
  · simp only [List.take_succ_cons, List.take_zero]
    rw [load64_cons8]
    simp only [u8, Option.some.injEq]
    omega

/-- Instance of C3 at the word `0x0807060504030201`. -/
theorem load64_after_store64_witness :
    0x0807060504030201 < 2 ^ 64 ∧ 8 ≤ (List.replicate 9 (7 : Byte)).length ∧
    ∃ out, store64 false (List.replicate 9 (7 : Byte)) 0x0807060504030201 = some out ∧
      load64 true out = some 0x0807060504030201 ∧
      load64 true (out.take 8) = some 0x0807060504030201 :=
  ⟨by decide, by decide,
    load64_after_store64 false true (List.replicate 9 7) 0x0807060504030201 (by decide) (by decide)⟩

/-- C4: for every 8-byte sequence `b`, `store64(dst, load64(b))` writes exactly
the bytes `b[0..8)` back (leaving the rest of `dst` alone), and `load64` is
injective on 8-byte buffers. -/
theorem store64_after_load64 (n1 n2 : Bool) (b dst : List Byte)
    (hb : b.length = 8) (hd : 8 ≤ dst.length) :
    ∃ w, load64 n1 b = some w ∧ w < 2 ^ 64 ∧
      (∃ out, store64 n2 dst w = some out ∧ out.take 8 = b ∧ out.drop 8 = dst.drop 8) ∧
      ∀ b2 : List Byte, b2.length = 8 → load64 n1 b2 = load64 n1 b → b2 = b := by
  have key : ∀ c : List Byte, c.length = 8 →
      ∃ w, load64 n1 c = some w ∧ w < 2 ^ 64 ∧
        ∃ out, store64 n2 dst w = some out ∧ out.take 8 = c ∧ out.drop 8 = dst.drop 8 := by
    intro c hc
    obtain ⟨c0, c1, c2, c3, c4, c5, c6, c7, cr, rfl⟩ := exists_cons8 c (by omega)
    obtain ⟨d0, d1, d2, d3, d4, d5, d6, d7, rest, rfl⟩ := exists_cons8 dst hd
    have hcr : cr = [] := by
      simp only [List.length_cons] at hc
      exact List.length_eq_zero.mp (by omega)
    subst hcr
    have h0 := c0.isLt
    have h1 := c1.isLt
    have h2 := c2.isLt
    have h3 := c3.isLt
    have h4 := c4.isLt
    have h5 := c5.isLt
    have h6 := c6.isLt
    have h7 := c7.isLt
    refine ⟨_, load64_cons8 n1 c0 c1 c2 c3 c4 c5 c6 c7 [], by omega, _,
      store64_cons8 n2 d0 d1 d2 d3 d4 d5 d6 d7 rest _, ?_, ?_⟩
    · simp only [List.take_succ_cons, List.take_zero, List.cons.injEq, and_true]
      refine ⟨?_, ?_, ?_, ?_, ?_, ?_, ?_, ?_⟩ <;> (apply Fin.ext; simp only [u8]; omega)
    · simp only [List.drop_succ_cons, List.drop_zero]
  obtain ⟨w, hw, hlt, out, hs, ht, hdrop⟩ := key b hb
  refine ⟨w, hw, hlt, ⟨out, hs, ht, hdrop⟩, ?_⟩
  intro b2 hb2 heq
  obtain ⟨w2, hw2, -, out2, hs2, ht2, -⟩ := key b2 hb2
  rw [hw2, hw] at heq
  have hww : w2 = w := Option.some.inj heq
  subst hww
  rw [hs] at hs2
  have : out = out2 := Option.some.inj hs2
  rw [← ht2, ← this, ht]

/-- Instance of C4 at the bytes `1, 2, ..., 8`. -/
theorem store64_after_load64_witness :
    ([1, 2, 3, 4, 5, 6, 7, 8] : List Byte).length = 8 ∧
    8 ≤ (List.replicate 10 (0 : Byte)).length ∧
    ∃ w, load64 false [1, 2, 3, 4, 5, 6, 7, 8] = some w ∧ w < 2 ^ 64 ∧
      (∃ out, store64 true (List.replicate 10 (0 : Byte)) w = some out ∧
        out.take 8 = [1, 2, 3, 4, 5, 6, 7, 8] ∧
        out.drop 8 = (List.replicate 10 (0 : Byte)).drop 8) ∧
      ∀ b2 : List Byte, b2.length = 8 →
        load64 false b2 = load64 false [1, 2, 3, 4, 5, 6, 7, 8] → b2 = [1, 2, 3, 4, 5, 6, 7, 8] :=
  ⟨by decide, by decide,
    store64_after_load64 false true [1, 2, 3, 4, 5, 6, 7, 8] (List.replicate 10 0)
      (by decide) (by decide)⟩

/-- C5: on a buffer of length at least 8, `load64` succeeds and its result
depends only on indices `0..7`; `store64` succeeds, keeps the length of the
buffer and changes no byte at an index `>= 8`. -/
theorem codec_total (native : Bool) (buf : List Byte) (w : Nat)
    (h : 8 ≤ buf.length) :
    (∃ x, load64 native buf = some x ∧
      ∀ buf2 : List Byte, buf2.take 8 = buf.take 8 → load64 native buf2 = some x) ∧
    (∃ out, store64 native buf w = some out ∧ out.length = buf.length ∧
      ∀ i, 8 ≤ i → out[i]? = buf[i]?) := by
  obtain ⟨b0, b1, b2, b3, b4, b5, b6, b7, rest, rfl⟩ := exists_cons8 buf h
  refine ⟨⟨_, load64_cons8 native b0 b1 b2 b3 b4 b5 b6 b7 rest, ?_⟩,
    ⟨_, store64_cons8 native b0 b1 b2 b3 b4 b5 b6 b7 rest w, ?_, ?_⟩⟩
  · intro buf2 h2
    have hl : 8 ≤ buf2.length := by
      have := congrArg List.length h2
      simp only [List.length_take, List.length_cons] at this
      omega
    obtain ⟨c0, c1, c2, c3, c4, c5, c6, c7, rest2, rfl⟩ := exists_cons8 buf2 hl
    simp only [List.take_succ_cons, List.take_zero, List.cons.injEq, and_true] at h2
    obtain ⟨rfl, rfl, rfl, rfl, rfl, rfl, rfl, rfl⟩ := h2
    exact load64_cons8 native _ _ _ _ _ _ _ _ rest2
  · simp only [List.length_cons]
  · intro i hi
    obtain ⟨j, rfl⟩ : ∃ j, i = j + 8 := ⟨i - 8, by omega⟩
    simp only [List.getElem?_cons_succ]

/-- Instance of C5 on a 9-byte buffer. -/
theorem codec_total_witness :
    8 ≤ ([1, 2, 3, 4, 5, 6, 7, 8, 9] : List Byte).length ∧
    (∃ x, load64 false [1, 2, 3, 4, 5, 6, 7, 8, 9] = some x ∧
      ∀ buf2 : List Byte, buf2.take 8 = ([1, 2, 3, 4, 5, 6, 7, 8, 9] : List Byte).take 8 →
        load64 false buf2 = some x) ∧
    (∃ out, store64 false [1, 2, 3, 4, 5, 6, 7, 8, 9] 5 = some out ∧
      out.length = ([1, 2, 3, 4, 5, 6, 7, 8, 9] : List Byte).length ∧
      ∀ i, 8 ≤ i → out[i]? = ([1, 2, 3, 4, 5, 6, 7, 8, 9] : List Byte)[i]?) :=
  ⟨by decide, codec_total false [1, 2, 3, 4, 5, 6, 7, 8, 9] 5 (by decide)⟩

/-- C6: the enumerators of `blake2b_constant` have the interoperability values
128 (block), 64 (output), 64 (key), 16 (salt), 16 (personalisation). -/
theorem blake2b_constant_values :
    BLAKE2B_BLOCKBYTES = 128 ∧ BLAKE2B_OUTBYTES = 64 ∧ BLAKE2B_KEYBYTES = 64 ∧
    BLAKE2B_SALTBYTES = 16 ∧ BLAKE2B_PERSONALBYTES = 16 :=
  ⟨rfl, rfl, rfl, rfl, rfl⟩

/-- C7: the packed `blake2b_param` is exactly 64 bytes (eight 64-bit words), its
members lie in declaration order at byte ranges digest_length 0..1,
key_length 1..2, fanout 2..3, depth 3..4, leaf_length 4..8, node_offset 8..16,
node_depth 16..17, inner_length 17..18, reserved 18..32, salt 32..48,
personal 48..64 (end exclusive), and the end offsets are the numbers in the
member comments. -/
theorem blake2b_param_layout :
    packed_layout 0 blake2b_param_members =
      [ ("digest_length", 0, 1), ("key_length", 1, 2), ("fanout", 2, 3), ("depth", 3, 4),
        ("leaf_length", 4, 8), ("node_offset", 8, 16), ("node_depth", 16, 17),
        ("inner_length", 17, 18), ("reserved", 18, 32), ("salt", 32, 48),
        ("personal", 48, 64) ] ∧
    packed_sizeof blake2b_param_members = 64 ∧
    packed_sizeof blake2b_param_members = 8 * CType.uint64_t.sizeof ∧
    (packed_layout 0 blake2b_param_members).map (fun e => e.2.2)
      = blake2b_param_members.map (fun m => m.comment) ∧
    (packed_layout 0 blake2b_param_members).map (fun e => e.2.2)
      = [1, 2, 3, 4, 8, 16, 17, 18, 32, 48, 64] :=
  ⟨rfl, rfl, rfl, rfl, rfl⟩

/-- C8: after `secure_zero_memory(v, n)` on a buffer of length at least `n`,
each of the first `n` bytes is 0 and every byte at an index `>= n` is
unchanged; with `n = 0` the buffer is unchanged. The call returns as soon as
the fuel exceeds `n`. -/
theorem secure_zero_memory_frame (fuel : Nat) (v : List Byte) (n : Nat)
    (hn : n ≤ v.length) (hs : n ≤ SIZE_MAX) (hf : n < fuel) :
    ∃ s, secure_zero_memory fuel v n = .ok s ∧ s.v.length = v.length ∧
      (∀ i, i < n → s.v[i]? = some 0) ∧ (∀ i, n ≤ i → s.v[i]? = v[i]?) ∧
      (n = 0 → s.v = v) := by
  obtain ⟨s, h1, h2, h3, -, -, -⟩ :=
    secure_zero_loop_spec n fuel { v := v, p := 0, n := n, writes := 0 } rfl hs
      (by simp only [Nat.zero_add]; exact hn) hf
  dsimp only at h2 h3
  have hlow : ∀ i, i < n → s.v[i]? = some 0 := by
    intro i hi
    rw [h3 i, if_pos (by omega)]
  have hhigh : ∀ i, n ≤ i → s.v[i]? = v[i]? := by
    intro i hi
    rw [h3 i, if_neg (by omega)]
  refine ⟨s, h1, h2, hlow, hhigh, ?_⟩
  intro h0
  apply List.ext_getElem? 
  intro i
  exact hhigh i (by omega)

/-- Instance of C8: wiping the first 2 bytes of a 4-byte buffer. -/
theorem secure_zero_memory_frame_witness :
    2 ≤ ([9, 8, 7, 6] : List Byte).length ∧ 2 ≤ SIZE_MAX ∧ 2 < 3 ∧
    ∃ s, secure_zero_memory 3 [9, 8, 7, 6] 2 = .ok s ∧
      s.v.length = ([9, 8, 7, 6] : List Byte).length ∧
      (∀ i, i < 2 → s.v[i]? = some 0) ∧
      (∀ i, 2 ≤ i → s.v[i]? = ([9, 8, 7, 6] : List Byte)[i]?) ∧
      (2 = 0 → s.v = [9, 8, 7, 6]) :=
  ⟨by decide, by decide, by decide,
    secure_zero_memory_frame 3 [9, 8, 7, 6] 2 (by decide) (by decide) (by decide)⟩

/-- Evaluation of the wipe: two writes, then the counter wraps to `SIZE_MAX`. -/
theorem secure_zero_memory_eval : secure_zero_memory 3 [9, 8, 7, 6] 2
    = .ok { v := [0, 0, 7, 6], p := 2, n := SIZE_MAX, writes := 2 } := by rfl

/-- Evaluation of the wipe past the end of the buffer. -/
theorem secure_zero_memory_eval_oob :
    secure_zero_memory 6 [9, 8, 7, 6] 5 = .error .out_of_bounds := by rfl

/-- Evaluation of the wipe with too little fuel. -/
theorem secure_zero_memory_eval_fuel :
    secure_zero_memory 2 [9, 8, 7, 6] 2 = .error .out_of_fuel := by rfl

/-! ## Streaming lemmas -/

theorem compress_frame (S : blake2b_state) (b : List Byte) :
    (blake2b_compress S b).buf = S.buf ∧ (blake2b_compress S b).f0 = S.f0 ∧
    (blake2b_compress S b).f1 = S.f1 ∧ (blake2b_compress S b).last_node = S.last_node ∧
    (blake2b_compress S b).digest_length = S.digest_length :=
  ⟨rfl, rfl, rfl, rfl, rfl⟩

theorem compress_h_length (S : blake2b_state) (b : List Byte) :
    (blake2b_compress S b).h.length = 8 := by
  simp only [blake2b_compress, List.length_map, List.length_range]

theorem compress_with_buf (S : blake2b_state) (b x : List Byte) :
    blake2b_compress { S with buf := x } b = { blake2b_compress S b with buf := x } := rfl

theorem drain_step_frame (S : blake2b_state) :
    (blake2b_drain_step S).buf = S.buf.drop BLAKE2B_BLOCKBYTES ∧
    (blake2b_drain_step S).f0 = S.f0 ∧
    (blake2b_drain_step S).digest_length = S.digest_length :=
  ⟨rfl, rfl, rfl⟩

theorem drain_step_append (S : blake2b_state) (x : List Byte)
    (h : BLAKE2B_BLOCKBYTES ≤ S.buf.length) :
    blake2b_drain_step { S with buf := S.buf ++ x }
      = { blake2b_drain_step S with buf := (blake2b_drain_step S).buf ++ x } := by
  simp only [blake2b_drain_step, compress_with_buf, List.take_append_of_le_length h,
    List.drop_append_of_le_length h]

theorem drain_frame (k : Nat) : ∀ S : blake2b_state,
    (blake2b_drain k S).f0 = S.f0 ∧ (blake2b_drain k S).digest_length = S.digest_length := by
  induction k with
  | zero => intro S; exact ⟨rfl, rfl⟩
  | succ k ih =>
    intro S
    rw [blake2b_drain]
    split
    · exact ih (blake2b_drain_step S)
    · exact ⟨rfl, rfl⟩

theorem drain_buf_le (k : Nat) : ∀ S : blake2b_state, S.buf.length ≤ k →
    (blake2b_drain k S).buf.length ≤ BLAKE2B_BLOCKBYTES := by
  induction k with
  | zero =>
    intro S h
    rw [blake2b_drain]
    omega
  | succ k ih =>
    intro S h
    rw [blake2b_drain]
    split
    · rename_i hlt
      apply ih
      rw [(drain_step_frame S).1, List.length_drop]
      simp only [BLAKE2B_BLOCKBYTES] at hlt ⊢
      omega
    · omega

theorem drain_fuel (k1 : Nat) : ∀ (k2 : Nat) (S : blake2b_state),
    S.buf.length ≤ k1 → S.buf.length ≤ k2 → blake2b_drain k1 S = blake2b_drain k2 S := by
  induction k1 with
  | zero =>
    intro k2 S h1 _
    cases k2 with
    | zero => rfl
    | succ k2 =>
      rw [blake2b_drain, blake2b_drain, if_neg (by omega)]
  | succ k1 ih =>
    intro k2 S h1 h2
    cases k2 with
    | zero =>
      rw [blake2b_drain, blake2b_drain, if_neg (by omega)]
    | succ k2 =>
      rw [blake2b_drain, blake2b_drain]
      split
      · rename_i hlt
        have hl : (blake2b_drain_step S).buf.length = S.buf.length - BLAKE2B_BLOCKBYTES := by
          rw [(drain_step_frame S).1, List.length_drop]
        simp only [BLAKE2B_BLOCKBYTES] at hlt hl
        exact ih k2 _ (by omega) (by omega)
      · rfl

theorem drain_of_le (k : Nat) (S : blake2b_state) (h : S.buf.length ≤ BLAKE2B_BLOCKBYTES) :
    blake2b_drain k S = S := by
  cases k with
  | zero => rfl
  | succ k => rw [blake2b_drain, if_neg (by omega)]

theorem drain_append (k : Nat) : ∀ (S : blake2b_state) (x : List Byte) (k1 k2 : Nat),
    S.buf.length ≤ k → S.buf.length + x.length ≤ k1 →
    (blake2b_drain k S).buf.length + x.length ≤ k2 →
    blake2b_drain k1 { S with buf := S.buf ++ x }
      = blake2b_drain k2
          { blake2b_drain k S with buf := (blake2b_drain k S).buf ++ x } := by
  induction k with
  | zero =>
    intro S x k1 k2 _ h1 h2
    rw [blake2b_drain] at h2 ⊢
    exact drain_fuel k1 k2 _ (by simpa using h1) (by simpa using h2)
  | succ k ih =>
    intro S x k1 k2 h h1 h2
    rw [blake2b_drain] at h2 ⊢
    split at h2
    · rename_i hlt
      rw [if_pos hlt]
      have hl : (blake2b_drain_step S).buf.length = S.buf.length - BLAKE2B_BLOCKBYTES := by
        rw [(drain_step_frame S).1, List.length_drop]
      have hlt2 := hlt
      simp only [BLAKE2B_BLOCKBYTES] at hlt2 hl
      obtain ⟨j, rfl⟩ : ∃ j, k1 = j + 1 := ⟨k1 - 1, by omega⟩
      rw [blake2b_drain, if_pos (by simp only [List.length_append]; omega),
        drain_step_append S x (Nat.le_of_lt hlt)]
      exact ih (blake2b_drain_step S) x j k2 (by omega) (by omega) h2
    · rename_i hge
      rw [if_neg hge]
      exact drain_fuel k1 k2 _ (by simpa using h1) (by simpa using h2)

theorem update_ok (S : blake2b_state) (x : List Byte) (hf : S.f0 = 0) :
    blake2b_update S x
      = .ok (blake2b_drain (S.buf ++ x).length { S with buf := S.buf ++ x }) := by
  unfold blake2b_update
  rw [if_neg (by simp [hf])]

theorem update_ok_frame (S : blake2b_state) (x : List Byte) (hf : S.f0 = 0) :
    ∃ S1, blake2b_update S x = .ok S1 ∧ S1.f0 = 0 ∧ S1.digest_length = S.digest_length ∧
      S1.buf.length ≤ BLAKE2B_BLOCKBYTES := by
  refine ⟨_, update_ok S x hf, ?_, ?_, ?_⟩
  · rw [(drain_frame _ _).1]; exact hf
  · rw [(drain_frame _ _).2]
  · exact drain_buf_le _ _ (Nat.le_refl _)

theorem update_update (S : blake2b_state) (x y : List Byte) (hf : S.f0 = 0) :
    (blake2b_update S x >>= fun S1 => blake2b_update S1 y) = blake2b_update S (x ++ y) := by
  obtain ⟨S1, h1, hf1, -, -⟩ := update_ok_frame S x hf
  have h1' := h1
  rw [update_ok S x hf] at h1'
  have e1 : S1 = blake2b_drain (S.buf ++ x).length { S with buf := S.buf ++ x } :=
    (Except.ok.inj h1').symm
  rw [h1]
  show blake2b_update S1 y = _
  rw [update_ok S1 y hf1, update_ok S (x ++ y) hf]
  congr 1
  have := drain_append (S.buf ++ x).length { S with buf := S.buf ++ x } y
    (S.buf ++ (x ++ y)).length (S1.buf ++ y).length (Nat.le_refl _)
    (by simp only [List.length_append]; omega)
    (by rw [← e1]; simp only [List.length_append]; omega)
  rw [← e1] at this
  simp only [List.append_assoc] at this
  exact this.symm

theorem foldlM_update (chunks : List (List Byte)) : ∀ S : blake2b_state, S.f0 = 0 →
    S.buf.length ≤ BLAKE2B_BLOCKBYTES →
    chunks.foldlM blake2b_update S = blake2b_update S chunks.flatten := by
  induction chunks with
  | nil =>
    intro S hf hb
    rw [List.foldlM_nil, List.flatten_nil, update_ok S [] hf]
    simp only [List.append_nil]
    rw [drain_of_le _ _ hb]
    rfl
  | cons c cs ih =>
    intro S hf hb
    rw [List.foldlM_cons, List.flatten_cons, ← update_update S c cs.flatten hf]
    obtain ⟨S1, h1, hf1, -, hb1⟩ := update_ok_frame S c hf
    rw [h1]
    exact ih S1 hf1 hb1

theorem init_param_ok (outlen keylen : Nat) (ho : 1 ≤ outlen ∧ outlen ≤ 64) (hk : keylen ≤ 64) :
    ∃ S, blake2b_init_param (blake2b_sequential_param outlen keylen) 0 = .ok S ∧ S.f0 = 0 ∧
      S.digest_length = outlen ∧ S.buf = [] := by
  unfold blake2b_init_param
  rw [if_neg (by simp only [blake2b_sequential_param, BLAKE2B_OUTBYTES, BLAKE2B_KEYBYTES]; omega)]
  exact ⟨_, rfl, rfl, rfl, rfl⟩

theorem init_key_zero (outlen : Nat) (key : List Byte) :
    blake2b_init_key outlen key 0 = blake2b_init outlen := by
  unfold blake2b_init_key blake2b_init
  by_cases h : outlen < 1 ∨ BLAKE2B_OUTBYTES < outlen
  · rw [if_pos h, if_pos (by tauto)]
  · rw [if_neg h, if_neg (by simp only [BLAKE2B_KEYBYTES]; omega)]
    cases blake2b_init_param (blake2b_sequential_param outlen 0) 0 <;> rfl

theorem init_key_ok (outlen : Nat) (key : List Byte) (keylen : Nat)
    (ho : 1 ≤ outlen ∧ outlen ≤ 64) (hk : keylen ≤ 64) :
    ∃ S, blake2b_init_key outlen key keylen = .ok S ∧ S.f0 = 0 ∧
      S.digest_length = outlen ∧ S.buf.length ≤ BLAKE2B_BLOCKBYTES := by
  obtain ⟨S0, h0, hf0, hd0, hb0⟩ := init_param_ok outlen keylen ho hk
  unfold blake2b_init_key
  rw [if_neg (by simp only [BLAKE2B_OUTBYTES, BLAKE2B_KEYBYTES]; omega), h0]
  show ∃ S, (if 0 < keylen then _ else _) = _ ∧ _
  by_cases hkey : 0 < keylen
  · rw [if_pos hkey]
    obtain ⟨S1, h1, hf1, hd1, hb1⟩ :=
      update_ok_frame S0 (pad_to BLAKE2B_BLOCKBYTES (key.take keylen)) hf0
    exact ⟨S1, h1, hf1, hd1.trans hd0, hb1⟩
  · rw [if_neg hkey]
    exact ⟨S0, rfl, hf0, hd0, by rw [hb0]; exact Nat.zero_le _⟩

theorem store64_zero_length (w : Nat) :
    ((store64 false (List.replicate 8 0) w).getD []).length = 8 := by
  have : List.replicate 8 (0 : Byte) = 0 :: 0 :: 0 :: 0 :: 0 :: 0 :: 0 :: 0 :: [] := rfl
  rw [this, store64_cons8]
  rfl

theorem final_ok (S : blake2b_state) (outlen : Nat) (hf : S.f0 = 0)
    (hd : S.digest_length = outlen) (ho : outlen ≤ 64) :
    ∃ S1 out, blake2b_final S outlen = .ok (S1, out) ∧ out.length = outlen ∧ S1.f0 ≠ 0 := by
  unfold blake2b_final
  rw [if_neg (by simp [hf]), if_neg (by simp [hd])]
  refine ⟨_, _, rfl, ?_, ?_⟩
  · rw [List.length_take, List.length_flatMap]
    have hc : ∀ l : List Nat,
        (l.map (List.length ∘ fun w => (store64 false (List.replicate 8 0) w).getD [])).sum
          = 8 * l.length := by
      intro l
      induction l with
      | nil => rfl
      | cons a l ih =>
        rw [List.map_cons, List.sum_cons, ih, Function.comp_apply, store64_zero_length,
          List.length_cons]
        omega
    rw [hc, List.length_take, compress_h_length]
    omega
  · rw [(compress_frame _ _).2.1]
    show (2 ^ 64 - 1 : Nat) ≠ 0
    norm_num

theorem stream_digest (S0 : blake2b_state) (chunks : List (List Byte)) (outlen : Nat)
    (hf : S0.f0 = 0) (hd : S0.digest_length = outlen) (hb : S0.buf.length ≤ BLAKE2B_BLOCKBYTES)
    (ho : outlen ≤ 64) :
    ∃ digest : List Byte, digest.length = outlen ∧
      (do let S ← chunks.foldlM blake2b_update S0
          let r ← blake2b_final S outlen
          pure r.2) = Except.ok digest ∧
      (do let S ← blake2b_update S0 chunks.flatten
          let r ← blake2b_final S outlen
          pure r.2) = Except.ok digest := by
  obtain ⟨S1, h1, hf1, hd1, -⟩ := update_ok_frame S0 chunks.flatten hf
  obtain ⟨S2, out, h2, hlen, -⟩ := final_ok S1 outlen hf1 (hd1.trans hd) ho
  refine ⟨out, hlen, ?_, ?_⟩
  · rw [foldlM_update chunks S0 hf hb, h1]
    show (do let r ← blake2b_final S1 outlen; pure r.2) = Except.ok out
    rw [h2]
    rfl
  · rw [h1]
    show (do let r ← blake2b_final S1 outlen; pure r.2) = Except.ok out
    rw [h2]
    rfl

/-! ## Claims on the streaming API -/

/-- C9: for every message, key and valid `outlen` (and `keylen <= 64`), feeding
the message to `blake2b_update` as any sequence of chunks whose concatenation
is the message and then calling `blake2b_final` yields the digest of the
one-shot `blake2b` on the whole message; without a key the same holds from
`blake2b_init`. -/
theorem blake2b_incremental (msg : List Byte) (chunks : List (List Byte)) (key : List Byte)
    (outlen keylen : Nat) (hc : chunks.flatten = msg)
    (ho : 1 ≤ outlen ∧ outlen ≤ 64) (hk : keylen ≤ 64) :
    ∃ digest : List Byte, blake2b msg key outlen keylen = Except.ok digest ∧
      (do let S ← blake2b_init_key outlen key keylen
          let S ← chunks.foldlM blake2b_update S
          let r ← blake2b_final S outlen
          pure r.2) = Except.ok digest ∧
      (keylen = 0 →
        (do let S ← blake2b_init outlen
            let S ← chunks.foldlM blake2b_update S
            let r ← blake2b_final S outlen
            pure r.2) = Except.ok digest) := by
  subst hc
  obtain ⟨S0, h0, hf0, hd0, hb0⟩ := init_key_ok outlen key keylen ho hk
  obtain ⟨digest, -, hs, h1⟩ := stream_digest S0 chunks outlen hf0 hd0 hb0 ho.2
  refine ⟨digest, ?_, ?_, ?_⟩
  · unfold blake2b
    rw [h0]
    exact h1
  · rw [h0]
    exact hs
  · intro hz
    subst hz
    rw [← init_key_zero outlen key, h0]
    exact hs

/-- Instance of C9: the message `1, 2, 3` fed as the chunks `[1, 2]`, `[]`, `[3]`. -/
theorem blake2b_incremental_witness :
    ([[1, 2], [], [3]] : List (List Byte)).flatten = [1, 2, 3] ∧ (1 ≤ 32 ∧ 32 ≤ 64) ∧ 0 ≤ 64 ∧
    ∃ digest : List Byte, blake2b [1, 2, 3] [] 32 0 = Except.ok digest ∧
      (do let S ← blake2b_init_key 32 [] 0
          let S ← ([[1, 2], [], [3]] : List (List Byte)).foldlM blake2b_update S
          let r ← blake2b_final S 32
          pure r.2) = Except.ok digest ∧
      (0 = 0 →
        (do let S ← blake2b_init 32
            let S ← ([[1, 2], [], [3]] : List (List Byte)).foldlM blake2b_update S
            let r ← blake2b_final S 32
            pure r.2) = Except.ok digest) :=
  ⟨by decide, by decide, by decide,
    blake2b_incremental [1, 2, 3] [[1, 2], [], [3]] [] 32 0 (by decide) (by decide) (by decide)⟩

/-- C10: `blake2b_init`, `blake2b_init_key` and `blake2b` fail with
`InvalidLength` whenever `outlen` is outside `[1,64]`, `blake2b_init_key` also
whenever `keylen > 64`; for every valid `outlen` (and `keylen <= 64`) the digest
of `blake2b`, and the digest of any init/update/final sequence, has exactly
`outlen` bytes. -/
theorem blake2b_length_contract (inp key : List Byte) (chunks : List (List Byte))
    (outlen keylen : Nat) :
    ((outlen < 1 ∨ 64 < outlen) →
      blake2b_init outlen = Except.error blake2b_error.InvalidLength ∧
      blake2b_init_key outlen key keylen = Except.error blake2b_error.InvalidLength ∧
      blake2b inp key outlen keylen = Except.error blake2b_error.InvalidLength) ∧
    (64 < keylen →
      blake2b_init_key outlen key keylen = Except.error blake2b_error.InvalidLength) ∧
    ((1 ≤ outlen ∧ outlen ≤ 64) → keylen ≤ 64 →
      (∃ digest : List Byte, blake2b inp key outlen keylen = Except.ok digest ∧
        digest.length = outlen) ∧
      (∃ digest : List Byte,
        (do let S ← blake2b_init_key outlen key keylen
            let S ← chunks.foldlM blake2b_update S
            let r ← blake2b_final S outlen
            pure r.2) = Except.ok digest ∧ digest.length = outlen) ∧
      (∃ digest : List Byte,
        (do let S ← blake2b_init outlen
            let S ← chunks.foldlM blake2b_update S
            let r ← blake2b_final S outlen
            pure r.2) = Except.ok digest ∧ digest.length = outlen)) := by
  refine ⟨?_, ?_, ?_⟩
  · intro h
    have hk : blake2b_init_key outlen key keylen = Except.error blake2b_error.InvalidLength := by
      unfold blake2b_init_key
      rw [if_pos (by simp only [BLAKE2B_OUTBYTES]; omega)]
    refine ⟨?_, hk, ?_⟩
    · unfold blake2b_init
      rw [if_pos (by simp only [BLAKE2B_OUTBYTES]; omega)]
    · unfold blake2b
      rw [hk]
      rfl
  · intro h
    unfold blake2b_init_key
    rw [if_pos (by simp only [BLAKE2B_KEYBYTES]; omega)]
  · intro ho hk
    obtain ⟨S0, h0, hf0, hd0, hb0⟩ := init_key_ok outlen key keylen ho hk
    obtain ⟨d1, hl1, -, h1⟩ := stream_digest S0 [inp] outlen hf0 hd0 hb0 ho.2
    obtain ⟨d2, hl2, h2, -⟩ := stream_digest S0 chunks outlen hf0 hd0 hb0 ho.2
    obtain ⟨T0, g0, gf0, gd0, gb0⟩ := init_key_ok outlen key 0 ho (Nat.zero_le _)
    obtain ⟨d3, hl3, h3, -⟩ := stream_digest T0 chunks outlen gf0 gd0 gb0 ho.2
    refine ⟨⟨d1, ?_, hl1⟩, ⟨d2, ?_, hl2⟩, ⟨d3, ?_, hl3⟩⟩
    · unfold blake2b
      rw [h0]
      simp only [List.flatten_cons, List.flatten_nil, List.append_nil] at h1
      exact h1
    · rw [h0]
      exact h2
    · rw [← init_key_zero outlen key, g0]
      exact h3

/-- Instance of C10: `outlen = 0` and `outlen = 65` are refused, `keylen = 65`
is refused, and `outlen = 20` with a 2-byte key yields 20 bytes. -/
theorem blake2b_length_contract_witness :
    ((0 < 1 ∨ 64 < 0) ∧ blake2b_init 0 = Except.error blake2b_error.InvalidLength) ∧
    ((65 < 1 ∨ 64 < 65) ∧ blake2b [1] [] 65 0 = Except.error blake2b_error.InvalidLength) ∧
    (64 < 65 ∧ blake2b_init_key 20 [] 65 = Except.error blake2b_error.InvalidLength) ∧
    ((1 ≤ 20 ∧ 20 ≤ 64) ∧ 2 ≤ 64 ∧
      ∃ digest : List Byte, blake2b [1, 2, 3] [7, 8] 20 2 = Except.ok digest ∧
        digest.length = 20) :=
  ⟨⟨by decide, ((blake2b_length_contract [] [] [] 0 0).1 (by decide)).1⟩,
    ⟨by decide, ((blake2b_length_contract [1] [] [] 65 0).1 (by decide)).2.2⟩,
    ⟨by decide, (blake2b_length_contract [] [] [] 20 65).2.1 (by decide)⟩,
    ⟨by decide, by decide,
      ((blake2b_length_contract [1, 2, 3] [7, 8] [] 20 2).2.2 (by decide) (by decide)).1⟩⟩

/-! ## Finalization -/

theorem final_sets_flag (S : blake2b_state) (outlen : Nat) (S1 : blake2b_state)
    (out : List Byte) (h : blake2b_final S outlen = Except.ok (S1, out)) :
    S1.f0 = 2 ^ 64 - 1 := by
  unfold blake2b_final at h
  split at h
  · exact absurd h (by simp)
  · split at h
    · exact absurd h (by simp)
    · have h1 := Except.ok.inj h
      have h2 := congrArg Prod.fst h1
      dsimp only at h2
      rw [← h2, (compress_frame _ _).2.1]

theorem finalized_rejects (S : blake2b_state) (hf : S.f0 ≠ 0) (outlen : Nat) (x : List Byte) :
    blake2b_final S outlen = Except.error blake2b_error.AlreadyFinalized ∧
    blake2b_update S x = Except.error blake2b_error.AlreadyFinalized := by
  unfold blake2b_final blake2b_update
  rw [if_pos hf, if_pos hf]
  exact ⟨rfl, rfl⟩

/-- C11: on any state, after a successful `blake2b_final` every further
`blake2b_final` and every `blake2b_update` on the resulting state fails with
`AlreadyFinalized` (an error, hence no output); and `blake2b_final` does
succeed on a state that is not finalized when `outlen` is the digest length
fixed at init. -/
theorem blake2b_finalize_once (S : blake2b_state) (outlen : Nat) :
    (∀ (S1 : blake2b_state) (out : List Byte),
      blake2b_final S outlen = Except.ok (S1, out) →
      (∀ outlen2 : Nat,
        blake2b_final S1 outlen2 = Except.error blake2b_error.AlreadyFinalized) ∧
      (∀ x : List Byte,
        blake2b_update S1 x = Except.error blake2b_error.AlreadyFinalized)) ∧
    (S.f0 = 0 → S.digest_length = outlen →
      ∃ (S1 : blake2b_state) (out : List Byte), blake2b_final S outlen = Except.ok (S1, out)) := by
  refine ⟨?_, ?_⟩
  · intro S1 out h
    have hf : S1.f0 ≠ 0 := by
      rw [final_sets_flag S outlen S1 out h]
      norm_num
    exact ⟨fun o => (finalized_rejects S1 hf o []).1, fun x => (finalized_rejects S1 hf 0 x).2⟩
  · intro hf hd
    unfold blake2b_final
    rw [if_neg (by simp [hf]), if_neg (by simp [hd])]
    exact ⟨_, _, rfl⟩

/-- Instance of C11: a fresh 32-byte state with two buffered bytes is
finalized once; the second `blake2b_final` and a later `blake2b_update` fail. -/
theorem blake2b_finalize_once_witness :
    ({ h := blake2b_IV, t0 := 0, t1 := 0, f0 := 0, f1 := 0, buf := [1, 2],
       last_node := 0, digest_length := 32 } : blake2b_state).f0 = 0 ∧
    ({ h := blake2b_IV, t0 := 0, t1 := 0, f0 := 0, f1 := 0, buf := [1, 2],
       last_node := 0, digest_length := 32 } : blake2b_state).digest_length = 32 ∧
    ∃ (S1 : blake2b_state) (out : List Byte),
      blake2b_final { h := blake2b_IV, t0 := 0, t1 := 0, f0 := 0, f1 := 0, buf := [1, 2],
                      last_node := 0, digest_length := 32 } 32 = Except.ok (S1, out) ∧
      blake2b_final S1 32 = Except.error blake2b_error.AlreadyFinalized ∧
      blake2b_update S1 [3] = Except.error blake2b_error.AlreadyFinalized := by
  refine ⟨rfl, rfl, ?_⟩
  obtain ⟨S1, out, h⟩ := (blake2b_finalize_once
    { h := blake2b_IV, t0 := 0, t1 := 0, f0 := 0, f1 := 0, buf := [1, 2],
      last_node := 0, digest_length := 32 } 32).2 rfl rfl
  have h2 := (blake2b_finalize_once
    { h := blake2b_IV, t0 := 0, t1 := 0, f0 := 0, f1 := 0, buf := [1, 2],
      last_node := 0, digest_length := 32 } 32).1 S1 out h
  exact ⟨S1, out, h, h2.1 32, h2.2 [3]⟩

/-! ## Native and portable codec -/

/-- C12: on a little-endian host (`memcpy_to_u64`, `memcpy_of_u64`) the
`NATIVE_LITTLE_ENDIAN` branch of `load64` returns the same word as the portable
byte-by-byte branch on every 8-byte input, and the `NATIVE_LITTLE_ENDIAN`
branch of `store64` writes the same bytes as the portable branch for every
word; this also holds on longer buffers, and on shorter ones both branches
fault. -/
theorem codec_native_eq_portable :
    (∀ b0 b1 b2 b3 b4 b5 b6 b7 : Byte,
      load64 true [b0, b1, b2, b3, b4, b5, b6, b7]
        = load64 false [b0, b1, b2, b3, b4, b5, b6, b7]) ∧
    (∀ src : List Byte, load64 true src = load64 false src) ∧
    (∀ (dst : List Byte) (w : Nat), store64 true dst w = store64 false dst w) := by
  have hload : ∀ src : List Byte, load64 true src = load64 false src := by
    intro src
    by_cases h : 8 ≤ src.length
    · obtain ⟨b0, b1, b2, b3, b4, b5, b6, b7, rest, rfl⟩ := exists_cons8 src h
      rw [load64_cons8, load64_cons8]
    · rcases src with _ | ⟨b0, _ | ⟨b1, _ | ⟨b2, _ | ⟨b3, _ | ⟨b4, _ | ⟨b5, _ | ⟨b6, _ | ⟨b7, rest⟩⟩⟩⟩⟩⟩⟩⟩
      all_goals first
        | (exfalso; apply h; simp only [List.length_cons]; omega)
        | simp [load64, memcpy_to_u64, rd]
  refine ⟨fun b0 b1 b2 b3 b4 b5 b6 b7 => hload _, hload, ?_⟩
  intro dst w
  by_cases h : 8 ≤ dst.length
  · obtain ⟨d0, d1, d2, d3, d4, d5, d6, d7, rest, rfl⟩ := exists_cons8 dst h
    rw [store64_cons8, store64_cons8]
  · rcases dst with _ | ⟨d0, _ | ⟨d1, _ | ⟨d2, _ | ⟨d3, _ | ⟨d4, _ | ⟨d5, _ | ⟨d6, _ | ⟨d7, rest⟩⟩⟩⟩⟩⟩⟩⟩
    all_goals first
      | (exfalso; apply h; simp only [List.length_cons]; omega)
      | simp [store64, memcpy_of_u64, wr]

/-! ## State record -/

/-- C13: the record `blake2b_state` has exactly the members `h` (8 words of 64
bits), `t` (2 words), `f` (2 words), `buf` (`2 * BLAKE2B_BLOCKBYTES = 256`
bytes, two blocks), `buflen` and `last_node`, in this order. -/
theorem blake2b_state_record :
    blake2b_state_members =
      [ ("h", CType.array CType.uint64_t 8), ("t", CType.array CType.uint64_t 2),
        ("f", CType.array CType.uint64_t 2), ("buf", CType.array CType.uint8_t 256),
        ("buflen", CType.size_t), ("last_node", CType.uint8_t) ] ∧
    blake2b_state_members.length = 6 ∧
    2 * BLAKE2B_BLOCKBYTES = 256 ∧
    blake2b_state_members.map (fun m => m.2.sizeof) = [8 * 8, 2 * 8, 2 * 8, 256, 8, 1] ∧
    (CType.array CType.uint8_t (2 * BLAKE2B_BLOCKBYTES)).sizeof = 2 * BLAKE2B_BLOCKBYTES :=
  ⟨rfl, rfl, rfl, rfl, rfl⟩

/-! ## Termination of the wipe -/

theorem size_wrap_pred (n : Nat) (h : n + 1 ≤ SIZE_MAX) :
    (n + 1 + SIZE_MAX) % (SIZE_MAX + 1) = n := by
  have hmax : SIZE_MAX = 18446744073709551615 := by norm_num [SIZE_MAX]
  rw [hmax] at h ⊢
  omega

theorem secure_zero_loop_fuel (n : Nat) : ∀ (f1 f2 : Nat) (s : WipeState),
    s.n = n → n ≤ SIZE_MAX → n < f1 → n < f2 →
    secure_zero_loop f1 s = secure_zero_loop f2 s := by
  induction n with
  | zero =>
    intro f1 f2 s hn _ h1 h2
    obtain ⟨k1, rfl⟩ : ∃ k, f1 = k + 1 := ⟨f1 - 1, by omega⟩
    obtain ⟨k2, rfl⟩ : ∃ k, f2 = k + 1 := ⟨f2 - 1, by omega⟩
    rw [secure_zero_loop, secure_zero_loop]
    simp only [hn, if_true]
  | succ m ih =>
    intro f1 f2 s hn hs h1 h2
    obtain ⟨k1, rfl⟩ : ∃ k, f1 = k + 1 := ⟨f1 - 1, by omega⟩
    obtain ⟨k2, rfl⟩ : ∃ k, f2 = k + 1 := ⟨f2 - 1, by omega⟩
    rw [secure_zero_loop, secure_zero_loop]
    simp only [hn, size_wrap_pred m hs, Nat.add_one_ne_zero, if_false]
    cases wr s.v s.p 0 with
    | none => rfl
    | some v => exact ih k1 k2 _ rfl (by omega) (by omega) (by omega)

theorem secure_zero_loop_starved (fuel : Nat) : ∀ s : WipeState,
    fuel ≤ s.n → s.n ≤ SIZE_MAX → s.p + s.n ≤ s.v.length →
    secure_zero_loop fuel s = Except.error Fault.out_of_fuel := by
  induction fuel with
  | zero => intro s _ _ _; rfl
  | succ k ih =>
    intro s hk hs hp
    obtain ⟨m, hm⟩ : ∃ m, s.n = m + 1 := ⟨s.n - 1, by omega⟩
    have hw : wr s.v s.p 0 = some (s.v.set s.p 0) := by
      unfold wr
      rw [if_pos (by omega)]
    rw [secure_zero_loop]
    simp only [hm, size_wrap_pred m (hm ▸ hs), Nat.add_one_ne_zero, if_false, hw]
    apply ih
    · show k ≤ m
      omega
    · show m ≤ SIZE_MAX
      omega
    · show s.p + 1 + m ≤ (s.v.set s.p 0).length
      rw [List.length_set]
      omega

/-- C14: for every size `n` of type `size_t` (`0` and `SIZE_MAX` included) and
every buffer of at least `n` bytes, the loop of `secure_zero_memory` ends at
its `(n+1)`-th test, after exactly `n` byte writes, with the cursor advanced by
`n` and `n` wrapped to `SIZE_MAX`; fuel beyond `n + 1` tests is not used (no
further iteration after the wrap), and fewer than `n + 1` tests do not reach
the end. -/
theorem secure_zero_memory_terminates (v : List Byte) (n : Nat)
    (hs : n ≤ SIZE_MAX) (hn : n ≤ v.length) :
    (∃ s, secure_zero_memory (n + 1) v n = Except.ok s ∧ s.writes = n ∧ s.p = n ∧
      s.n = SIZE_MAX) ∧
    (∀ fuel, n < fuel → secure_zero_memory fuel v n = secure_zero_memory (n + 1) v n) ∧
    (∀ fuel, fuel ≤ n → secure_zero_memory fuel v n = Except.error Fault.out_of_fuel) := by
  refine ⟨?_, ?_, ?_⟩
  · obtain ⟨s, h1, -, -, h4, h5, h6⟩ :=
      secure_zero_loop_spec n (n + 1) { v := v, p := 0, n := n, writes := 0 } rfl hs
        (by simp only [Nat.zero_add]; exact hn) (Nat.lt_succ_self n)
    dsimp only at h4 h6
    exact ⟨s, h1, by omega, by omega, h5⟩
  · intro fuel hf
    exact secure_zero_loop_fuel n fuel (n + 1) _ rfl hs hf (Nat.lt_succ_self n)
  · intro fuel hf
    exact secure_zero_loop_starved fuel _ hf hs (by simp only [Nat.zero_add]; exact hn)

/-- Instance of C14: wiping 3 bytes of a 4-byte buffer. -/
theorem secure_zero_memory_terminates_witness :
    3 ≤ SIZE_MAX ∧ 3 ≤ ([5, 6, 7, 8] : List Byte).length ∧
    (∃ s, secure_zero_memory (3 + 1) [5, 6, 7, 8] 3 = Except.ok s ∧ s.writes = 3 ∧ s.p = 3 ∧
      s.n = SIZE_MAX) ∧
    (∀ fuel, 3 < fuel →
      secure_zero_memory fuel [5, 6, 7, 8] 3 = secure_zero_memory (3 + 1) [5, 6, 7, 8] 3) ∧
    (∀ fuel, fuel ≤ 3 →
      secure_zero_memory fuel [5, 6, 7, 8] 3 = Except.error Fault.out_of_fuel) :=
  ⟨by decide, by decide, secure_zero_memory_terminates [5, 6, 7, 8] 3 (by decide) (by decide)⟩

/-- Evaluation of the wipe with `n = 0`: no write, the counter wraps. -/
theorem secure_zero_memory_eval_zero : secure_zero_memory 1 [9, 8] 0
    = .ok { v := [9, 8], p := 0, n := SIZE_MAX, writes := 0 } := by rfl

/-! ## The 48-bit codec -/

theorem exists_cons6 (l : List Byte) (h : 6 ≤ l.length) :
    ∃ b0 b1 b2 b3 b4 b5 rest, l = b0 :: b1 :: b2 :: b3 :: b4 :: b5 :: rest := by
  rcases l with _ | ⟨b0, _ | ⟨b1, _ | ⟨b2, _ | ⟨b3, _ | ⟨b4, _ | ⟨b5, rest⟩⟩⟩⟩⟩⟩
  all_goals first | exact ⟨_, _, _, _, _, _, _, rfl⟩ | (simp at h)

theorem load48_cons6 (b0 b1 b2 b3 b4 b5 : Byte) (rest : List Byte) :
    load48 (b0 :: b1 :: b2 :: b3 :: b4 :: b5 :: rest)
      = some (b0.val + b1.val * 2 ^ 8 + b2.val * 2 ^ 16 + b3.val * 2 ^ 24 + b4.val * 2 ^ 32
          + b5.val * 2 ^ 40) := by
  have h0 := b0.isLt
  have h1 := b1.isLt
  have h2 := b2.isLt
  have h3 := b3.isLt
  have h4 := b4.isLt
  have h5 := b5.isLt
  simp only [load48, rd, List.getElem?_cons_zero, List.getElem?_cons_succ, Option.map_some',
    Option.bind_eq_bind, Option.some_bind, Option.pure_def]
  rw [or_shl64 _ _ 8 (by omega) h1 (by omega), or_shl64 _ _ 16 (by omega) h2 (by omega),
    or_shl64 _ _ 24 (by omega) h3 (by omega), or_shl64 _ _ 32 (by omega) h4 (by omega),
    or_shl64 _ _ 40 (by omega) h5 (by omega)]

theorem store48_cons6 (d0 d1 d2 d3 d4 d5 : Byte) (rest : List Byte) (w : Nat) :
    store48 (d0 :: d1 :: d2 :: d3 :: d4 :: d5 :: rest) w
      = some (u8 w :: u8 (w / 2 ^ 8) :: u8 (w / 2 ^ 16) :: u8 (w / 2 ^ 24) :: u8 (w / 2 ^ 32)
          :: u8 (w / 2 ^ 40) :: rest) := by
  have e2 : w / 2 ^ 8 / 2 ^ 8 = w / 2 ^ 16 := by
    rw [Nat.div_div_eq_div_mul, ← Nat.pow_add]
  have e3 : w / 2 ^ 16 / 2 ^ 8 = w / 2 ^ 24 := by
    rw [Nat.div_div_eq_div_mul, ← Nat.pow_add]
  have e4 : w / 2 ^ 24 / 2 ^ 8 = w / 2 ^ 32 := by
    rw [Nat.div_div_eq_div_mul, ← Nat.pow_add]
  have e5 : w / 2 ^ 32 / 2 ^ 8 = w / 2 ^ 40 := by
    rw [Nat.div_div_eq_div_mul, ← Nat.pow_add]
  simp only [store48, wr, List.length_cons, List.set_cons_zero, List.set_cons_succ,
    Nat.shiftRight_eq_div_pow, Option.bind_eq_bind, Option.pure_def, Nat.zero_lt_succ,
    Nat.succ_lt_succ_iff, if_true, Option.some_bind, e2, e3, e4, e5]

/-- C15: for every 64-bit word `w`, `load48` applied to the 6 bytes written by
`store48(dst, w)` returns `w mod 2^48`; the round trip gives back `w` exactly
when `w < 2^48`; and `load48` of any 6 bytes is below `2^48`. -/
theorem load48_after_store48 (dst : List Byte) (w : Nat)
    (_hw : w < 2 ^ 64) (hd : 6 ≤ dst.length) :
    (∃ out, store48 dst w = some out ∧ load48 out = some (w % 2 ^ 48) ∧
      load48 (out.take 6) = some (w % 2 ^ 48) ∧
      (load48 out = some w ↔ w < 2 ^ 48)) ∧
    (∀ b : List Byte, 6 ≤ b.length → ∃ x, load48 b = some x ∧ x < 2 ^ 48) := by
  refine ⟨?_, ?_⟩
  · obtain ⟨d0, d1, d2, d3, d4, d5, rest, rfl⟩ := exists_cons6 dst hd
    have hl : load48 (u8 w :: u8 (w / 2 ^ 8) :: u8 (w / 2 ^ 16) :: u8 (w / 2 ^ 24)
        :: u8 (w / 2 ^ 32) :: u8 (w / 2 ^ 40) :: rest) = some (w % 2 ^ 48) := by
      rw [load48_cons6]
      simp only [u8, Option.some.injEq]
      omega
    have hl2 : load48 (u8 w :: u8 (w / 2 ^ 8) :: u8 (w / 2 ^ 16) :: u8 (w / 2 ^ 24)
        :: u8 (w / 2 ^ 32) :: u8 (w / 2 ^ 40) :: []) = some (w % 2 ^ 48) := by
      rw [load48_cons6]
      simp only [u8, Option.some.injEq]
      omega
    refine ⟨_, store48_cons6 d0 d1 d2 d3 d4 d5 rest w, hl, ?_, ?_⟩
    · simp only [List.take_succ_cons, List.take_zero]
      exact hl2
    · rw [hl, Option.some.injEq]
      constructor
      · intro h
        rw [← h]
        exact Nat.mod_lt _ (by norm_num)
      · intro h
        exact Nat.mod_eq_of_lt h
  · intro b hb
    obtain ⟨b0, b1, b2, b3, b4, b5, rest, rfl⟩ := exists_cons6 b hb
    have h0 := b0.isLt
    have h1 := b1.isLt
    have h2 := b2.isLt
    have h3 := b3.isLt
    have h4 := b4.isLt
    have h5 := b5.isLt
    exact ⟨_, load48_cons6 b0 b1 b2 b3 b4 b5 rest, by omega⟩

/-- Instance of C15: the word `0x0807060504030201` loses its two top bytes. -/
theorem load48_after_store48_witness :
    0x0807060504030201 < 2 ^ 64 ∧ 6 ≤ (List.replicate 6 (0 : Byte)).length ∧
    (∃ out, store48 (List.replicate 6 (0 : Byte)) 0x0807060504030201 = some out ∧
      load48 out = some (0x0807060504030201 % 2 ^ 48) ∧
      load48 (out.take 6) = some (0x0807060504030201 % 2 ^ 48) ∧
      (load48 out = some 0x0807060504030201 ↔ 0x0807060504030201 < 2 ^ 48)) ∧
    (∀ b : List Byte, 6 ≤ b.length → ∃ x, load48 b = some x ∧ x < 2 ^ 48) :=
  ⟨by decide, by decide,
    load48_after_store48 (List.replicate 6 0) 0x0807060504030201 (by decide) (by decide)⟩

/-- Evaluation of the 48-bit round trip on a word above `2^48`. -/
theorem load48_store48_eval :
    (store48 [0, 0, 0, 0, 0, 0] 0x0807060504030201).bind load48 = some 0x060504030201 := by
  decide

/-- C16: `load48` of 6 bytes is the portable `load64` of those bytes followed
by two zero bytes, and the 6 bytes written by `store48` are the first 6 bytes
written by the portable `store64`. -/
theorem codec48_is_codec64_restricted :
    (∀ b0 b1 b2 b3 b4 b5 : Byte,
      load48 [b0, b1, b2, b3, b4, b5] = load64 false [b0, b1, b2, b3, b4, b5, 0, 0]) ∧
    (∀ (d48 d64 : List Byte) (w : Nat), 6 ≤ d48.length → 8 ≤ d64.length →
      ∃ o48 o64, store48 d48 w = some o48 ∧ store64 false d64 w = some o64 ∧
        o48.take 6 = o64.take 6) := by
  refine ⟨?_, ?_⟩
  · intro b0 b1 b2 b3 b4 b5
    rw [load48_cons6, load64_cons8]
    simp only [Fin.val_zero, Nat.zero_mul, Nat.add_zero]
  · intro d48 d64 w h6 h8
    obtain ⟨a0, a1, a2, a3, a4, a5, r6, rfl⟩ := exists_cons6 d48 h6
    obtain ⟨c0, c1, c2, c3, c4, c5, c6, c7, r8, rfl⟩ := exists_cons8 d64 h8
    refine ⟨_, _, store48_cons6 a0 a1 a2 a3 a4 a5 r6 w,
      store64_cons8 false c0 c1 c2 c3 c4 c5 c6 c7 r8 w, ?_⟩
    simp only [List.take_succ_cons, List.take_zero]

/-- Instance of C16 at the word `0x0807060504030201`. -/
theorem codec48_is_codec64_restricted_witness :
    load48 [1, 2, 3, 4, 5, 6] = load64 false [1, 2, 3, 4, 5, 6, 0, 0] ∧
    6 ≤ (List.replicate 6 (9 : Byte)).length ∧ 8 ≤ (List.replicate 8 (7 : Byte)).length ∧
    ∃ o48 o64, store48 (List.replicate 6 (9 : Byte)) 0x0807060504030201 = some o48 ∧
      store64 false (List.replicate 8 (7 : Byte)) 0x0807060504030201 = some o64 ∧
      o48.take 6 = o64.take 6 :=
  ⟨codec48_is_codec64_restricted.1 1 2 3 4 5 6, by decide, by decide,
    codec48_is_codec64_restricted.2 (List.replicate 6 9) (List.replicate 8 7)
      0x0807060504030201 (by decide) (by decide)⟩

end Blake2b
